import Mathlib

/-!
Shallow embedding of `morikuni/go-lexorank` (`lexorank.go`).

Characters (Go `rune`) are modelled as `Nat` codepoints; Go strings are
modelled as `List Nat` of runes (all keys in play are ASCII, where byte-wise
and rune-wise lexicographic order agree).  A Go function that can panic
(array index out of range) is modelled with an outer `Option`: `none` means
the call panics; `some v` means it returns `v`.  Fallible functions return
`Except` inside that `Option`.
-/

deriving instance DecidableEq for Except

/-- Model of the Go struct `characterSet`: the sorted rune list and the
`runeToIndex [128]int` zero-initialised lookup array (as a list of length
128). -/
structure CSet where
  runes : List Nat
  tbl : List Nat
deriving DecidableEq

/-- Model of `characterSet.Min`: `c.runes[0]`, which panics (`none`) when
`runes` is empty. -/
def CSet.MinOp (c : CSet) : Option Nat :=
  c.runes[0]?

/-- Model of `characterSet.Max`: `c.runes[len(c.runes)-1]`. -/
def CSet.MaxOp (c : CSet) : Option Nat :=
  c.runes[c.runes.length - 1]?

/-- Model of `characterSet.Next`.  The outer `Option` is the panic of the
array accesses `c.runeToIndex[r]` / `c.runes[index+1]`; the inner
`Option Nat` is the Go pair `(rune, bool)`: `none` for `(0, false)`,
`some next` for `(next, true)`. -/
def CSet.NextOp (c : CSet) (r : Nat) : Option (Option Nat) :=
  match c.tbl[r]? with
  | none => none
  | some index =>
    if index = c.runes.length - 1 then some none
    else
      match c.runes[index + 1]? with
      | none => none
      | some nx => some (some nx)

/-- Model of `characterSet.Prev`, same conventions as `CSet.NextOp`. -/
def CSet.PrevOp (c : CSet) (r : Nat) : Option (Option Nat) :=
  match c.tbl[r]? with
  | none => none
  | some index =>
    if index = 0 then some none
    else
      match c.runes[index - 1]? with
      | none => none
      | some pv => some (some pv)

/-- Model of `characterSet.Mid`: circular midpoint.  `none` is a panic of
one of the array accesses. -/
def CSet.MidOp (c : CSet) (a b : Nat) : Option Nat :=
  match c.tbl[a]? with
  | none => none
  | some indexA =>
    match c.tbl[b]? with
    | none => none
    | some indexB =>
      let indexB' := if indexB < indexA then indexB + c.runes.length else indexB
      let midIndex := (indexA + indexB') / 2
      c.runes[midIndex % c.runes.length]?

/-- Construction-time errors of `NewASCIICharacterSet`. -/
inductive CSetError where
  | notASCII (r : Nat)
  | duplicated (r : Nat)
deriving DecidableEq

/-- Insertion into an ascending list, used to model `slices.Sort`. -/
def insertAsc (x : Nat) : List Nat → List Nat
  | [] => [x]
  | y :: ys => if x ≤ y then x :: y :: ys else y :: insertAsc x ys

/-- Ascending sort of the rune list, modelling `slices.Sort(runes)`. -/
def sortRunes : List Nat → List Nat
  | [] => []
  | x :: xs => insertAsc x (sortRunes xs)

/-- The loop of `NewASCIICharacterSet` building `runeToIndex`: for each rune
`r` (at loop index `i`) reject non-ASCII runes, reject `r` when
`runeToIndex[r] != 0`, otherwise store `runeToIndex[r] = i`. -/
def buildRuneToIndex : List Nat → Nat → List Nat → Except CSetError (List Nat)
  | [], _, tbl => Except.ok tbl
  | r :: rest, i, tbl =>
    if 127 < r then Except.error (CSetError.notASCII r)
    else if tbl.getD r 0 ≠ 0 then Except.error (CSetError.duplicated r)
    else buildRuneToIndex rest (i + 1) (tbl.set r i)

/-- Model of `NewASCIICharacterSet`. -/
def NewASCIICharacterSet (set : List Nat) : Except CSetError CSet :=
  let runes := sortRunes set
  match buildRuneToIndex runes 0 (List.replicate 128 0) with
  | Except.error e => Except.error e
  | Except.ok tbl => Except.ok ⟨runes, tbl⟩

/-- Helper for stating results about `Except` values. -/
def exceptIsOk {ε α : Type} : Except ε α → Bool
  | Except.ok _ => true
  | Except.error _ => false

/-- Go string comparison `<` (lexicographic, a proper prefix is smaller),
on rune lists. -/
def goStringLt : List Nat → List Nat → Bool
  | [], [] => false
  | [], _ :: _ => true
  | _ :: _, [] => false
  | a :: as, b :: bs =>
    if a < b then true else if b < a then false else goStringLt as bs

/-- Model of `runesGreaterThan` (only ever called on equal-length slices;
the unequal-length panic branch is unreachable at its call sites). -/
def runesGreaterThan : List Nat → List Nat → Bool
  | a :: as, b :: bs =>
    if b < a then true else if a < b then false else runesGreaterThan as bs
  | _, _ => false

/-- The distinct failure values `Generator.Between` can return. -/
inductive GenError where
  | nextOfMinNotFound
  | allMinBefore
  | orderViolation
deriving DecidableEq

/-- Build a list of `n` copies of the character `x`; when `x` is a panicking
lookup (`none`) and `n > 0` the panic propagates.  Models the repeated
`g.characterSet.Min()` / `Max()` calls that fill the tail of a key. -/
def fillRep (x : Option Nat) : Nat → Option (List Nat)
  | 0 => some []
  | k + 1 => Option.bind x (fun v => Option.map (fun l => v :: l) (fillRep x k))

/-- The `nextKey == ""` scan of `Generator.Between`: walk the key from its
last rune towards the front, replace the first rune that has a `Next` with
it and reset every later position to `Min`.  `some none` means no position
had a successor. -/
def incrFromRight (c : CSet) : List Nat → Option (Option (List Nat))
  | [] => some none
  | r :: rest =>
    match incrFromRight c rest with
    | none => none
    | some (some newRest) => some (some (r :: newRest))
    | some none =>
      match CSet.NextOp c r with
      | none => none
      | some none => some none
      | some (some inc) =>
        match fillRep (CSet.MinOp c) rest.length with
        | none => none
        | some f => some (some (inc :: f))

/-- The `prevKey == ""` scan of `Generator.Between`: walk the key from its
last rune towards the front, replace the first rune that has a `Prev` with
it and reset every later position to `Max`. -/
def decrFromRight (c : CSet) : List Nat → Option (Option (List Nat))
  | [] => some none
  | r :: rest =>
    match decrFromRight c rest with
    | none => none
    | some (some newRest) => some (some (r :: newRest))
    | some none =>
      match CSet.PrevOp c r with
      | none => none
      | some none => some none
      | some (some dec) =>
        match fillRep (CSet.MaxOp c) rest.length with
        | none => none
        | some f => some (some (dec :: f))

/-- The length-equalising step of `Generator.Between`: right-pad the shorter
key with `Min`. -/
def padKeys (c : CSet) (pr nr : List Nat) : Option (List Nat × List Nat) :=
  if nr.length < pr.length then
    match fillRep (CSet.MinOp c) (pr.length - nr.length) with
    | none => none
    | some f => some (pr, nr ++ f)
  else if pr.length < nr.length then
    match fillRep (CSet.MinOp c) (nr.length - pr.length) with
    | none => none
    | some f => some (pr ++ f, nr)
  else some (pr, nr)

/-- The scanning loop of `Generator.Between` over the two padded keys.
`ppre`/`npre` are the already scanned prefixes (`prevRunes[:i]` /
`nextRunes[:i]`), `mid` is the alphabet midpoint used to fill tails.
`some none` is the loop falling through (growth case); `none` is a panic. -/
def loopBetween (c : CSet) (mid : Nat) :
    List Nat → List Nat → List Nat → List Nat → Option (Option (List Nat))
  | _, _, [], _ => some none
  | _, _, _ :: _, [] => none
  | ppre, npre, p :: ps, q :: qs =>
    if p = q then loopBetween c mid (ppre ++ [p]) (npre ++ [q]) ps qs
    else
      match CSet.MidOp c p q with
      | none => none
      | some m =>
        if p < m then
          match fillRep (some mid) ps.length with
          | none => none
          | some f => some (some (ppre ++ m :: f))
        else if m < q ∧ runesGreaterThan npre ppre then
          match fillRep (some mid) ps.length with
          | none => none
          | some f => some (some (npre ++ m :: f))
        else loopBetween c mid (ppre ++ [p]) (npre ++ [q]) ps qs

/-- The both-bounds-present tail of `Generator.Between`: pad, compute the
alphabet midpoint, scan; on fall-through return the padded `prev` with the
midpoint appended. -/
def betweenBoth (c : CSet) (pr0 nr0 : List Nat) : Option (Except GenError (List Nat)) :=
  match padKeys c pr0 nr0 with
  | none => none
  | some (pr, nr) =>
    match CSet.MinOp c with
    | none => none
    | some mn =>
      match CSet.MaxOp c with
      | none => none
      | some mx =>
        match CSet.MidOp c mn mx with
        | none => none
        | some mid =>
          match loopBetween c mid [] [] pr nr with
          | none => none
          | some (some res) => some (Except.ok res)
          | some none => some (Except.ok (pr ++ [mid]))

/-- Model of `Generator.Between` for a character set `c` and configured
initial key `initial`.  The empty list models an absent bound (Go `""`). -/
def between (c : CSet) (initial : List Nat) (prevKey nextKey : List Nat) :
    Option (Except GenError (List Nat)) :=
  if prevKey = [] ∧ nextKey = [] then some (Except.ok initial)
  else if nextKey = [] then
    match incrFromRight c prevKey with
    | none => none
    | some (some res) => some (Except.ok res)
    | some none =>
      match CSet.MinOp c with
      | none => none
      | some mn =>
        match CSet.NextOp c mn with
        | none => none
        | some none => some (Except.error GenError.nextOfMinNotFound)
        | some (some nextToMin) => some (Except.ok (prevKey ++ [nextToMin]))
  else if prevKey = [] then
    match decrFromRight c nextKey with
    | none => none
    | some (some res) => some (Except.ok res)
    | some none => some (Except.error GenError.allMinBefore)
  else if goStringLt nextKey prevKey then some (Except.error GenError.orderViolation)
  else betweenBoth c prevKey nextKey

/-- Model of the Go `Generator` struct. -/
structure Generator where
  characterSet : CSet
  initial : List Nat
deriving DecidableEq

/-- `Generator.Between` method. -/
def Generator.Between (g : Generator) (prevKey nextKey : List Nat) :
    Option (Except GenError (List Nat)) :=
  between g.characterSet g.initial prevKey nextKey

/-- `Generator.Next`: `Between(key, "")`. -/
def Generator.NextOf (g : Generator) (key : List Nat) : Option (Except GenError (List Nat)) :=
  g.Between key []

/-- `Generator.Prev`: `Between("", key)`. -/
def Generator.PrevOf (g : Generator) (key : List Nat) : Option (Except GenError (List Nat)) :=
  g.Between [] key

/-- Errors of `Bucket.Between`: the two malformed-bucket-key errors, the
distinguished `ErrBucketMismatch`, and a wrapped generator error. -/
inductive BucketError where
  | prevFormat
  | nextFormat
  | mismatch
  | gen (e : GenError)
deriving DecidableEq

/-- Model of the Go `Bucket` struct (the source field `defaultPrefix` is
named `defaultTag` here). -/
structure Bucket where
  defaultTag : List Nat
  separator : Nat
  generator : Generator
deriving DecidableEq

/-- Split at the first occurrence of `sep`; `none` when `sep` does not
occur.  Models `strings.SplitN(key, sep, 2)`. -/
def splitFirst (sep : Nat) : List Nat → Option (List Nat × List Nat)
  | [] => none
  | c :: cs =>
    if c = sep then some ([], cs)
    else
      match splitFirst sep cs with
      | none => none
      | some (t, r) => some (c :: t, r)

/-- Model of `Bucket.SplitBucketKey`: everything before the first separator
is the bucket tag, everything after it the bare key; with no separator both
components are empty. -/
def Bucket.SplitBucketKey (b : Bucket) (key : List Nat) : List Nat × List Nat :=
  match splitFirst b.separator key with
  | none => ([], [])
  | some p => p

/-- Model of `Bucket.createBucketKey`: `"<bucket><separator><key>"`, with
`defaultTag` substituted for an empty bucket tag. -/
def Bucket.createBucketKey (b : Bucket) (bucket : List Nat) (key : List Nat) : List Nat :=
  (if bucket = [] then b.defaultTag else bucket) ++ b.separator :: key

/-- Model of `Bucket.Between`. -/
def Bucket.Between (b : Bucket) (prev next : List Nat) :
    Option (Except BucketError (List Nat)) :=
  let step1 : Except BucketError (List Nat × List Nat) :=
    if prev = [] then Except.ok ([], [])
    else
      let sp := b.SplitBucketKey prev
      if sp.1 = [] then Except.error BucketError.prevFormat
      else Except.ok (sp.1, sp.2)
  match step1 with
  | Except.error e => some (Except.error e)
  | Except.ok (pfx1, prevKey) =>
    let step2 : Except BucketError (List Nat × List Nat) :=
      if next = [] then Except.ok (pfx1, [])
      else
        let sn := b.SplitBucketKey next
        if sn.1 = [] then Except.error BucketError.nextFormat
        else if pfx1 ≠ [] ∧ pfx1 ≠ sn.1 then Except.error BucketError.mismatch
        else Except.ok (sn.1, sn.2)
    match step2 with
    | Except.error e => some (Except.error e)
    | Except.ok (pfx, nextKey) =>
      match Generator.Between b.generator prevKey nextKey with
      | none => none
      | some (Except.error e) => some (Except.error (BucketError.gen e))
      | some (Except.ok k) => some (Except.ok (b.createBucketKey pfx k))

/-- The ten-digit alphabet `"0123456789"` used in the repository's tests,
built through `NewASCIICharacterSet`. -/
def digitsCS : CSet :=
  match NewASCIICharacterSet [48, 49, 50, 51, 52, 53, 54, 55, 56, 57] with
  | Except.ok c => c
  | Except.error _ => ⟨[], []⟩

/-- The generator of the repository's tests: digits alphabet, initial key
`"555"`. -/
def digitsGen : Generator :=
  ⟨digitsCS, [53, 53, 53]⟩

/-- A bucket over the digits generator with the default separator `'|'` and
default tag `"0"`. -/
def digitsBucket : Bucket :=
  ⟨[48], 124, digitsGen⟩

/-- Well-formedness of a `CSet` value: what a duplicate-free ASCII
construction actually guarantees — a non-empty strictly ascending rune
list, a 128-entry table mapping each rune to its rank and every other
ASCII codepoint to 0, with all table entries in range. -/
def WF (c : CSet) : Prop :=
  c.runes ≠ [] ∧
  c.tbl.length = 128 ∧
  List.Pairwise (· < ·) c.runes ∧
  (∀ r ∈ c.runes, r < 128) ∧
  (∀ i, i < c.runes.length → c.tbl[c.runes.getD i 0]? = some i) ∧
  (∀ v ∈ c.tbl, v < c.runes.length) ∧
  (∀ r, r < 128 → r ∉ c.runes → c.tbl[r]? = some 0)

instance (c : CSet) : Decidable (WF c) := by
  unfold WF
  infer_instance

theorem getElem?_some_lt {l : List Nat} {n a : Nat} (h : l[n]? = some a) :
    n < l.length := by
  by_contra hc
  rw [List.getElem?_eq_none_iff.mpr (by omega)] at h
  simp at h

theorem fillRep_some (x : Nat) : ∀ k, fillRep (some x) k = some (List.replicate k x) := by
  intro k
  induction k with
  | zero => rfl
  | succ k ih => simp [fillRep, ih, List.replicate_succ]

theorem goStringLt_nil_cons (b : Nat) (bs : List Nat) :
    goStringLt [] (b :: bs) = true := rfl

theorem goStringLt_cons_nil (a : Nat) (as : List Nat) :
    goStringLt (a :: as) [] = false := rfl

theorem goStringLt_cons_cons (a b : Nat) (as bs : List Nat) :
    goStringLt (a :: as) (b :: bs) =
      if a < b then true else if b < a then false else goStringLt as bs := rfl

theorem goStringLt_append_left (x : List Nat) (u v : List Nat) :
    goStringLt (x ++ u) (x ++ v) = goStringLt u v := by
  induction x with
  | nil => rfl
  | cons a x ih => simp [goStringLt_cons_cons, ih]

theorem goStringLt_proper_pre (a : List Nat) (w : Nat) (t : List Nat) :
    goStringLt a (a ++ w :: t) = true := by
  induction a with
  | nil => rfl
  | cons x xs ih => simpa [goStringLt_cons_cons] using ih

theorem goStringLt_of_take_getElem? {a b : List Nat} {j : Nat} {u v : Nat}
    (ht : a.take j = b.take j) (ha : a[j]? = some u) (hb : b[j]? = some v)
    (huv : u < v) : goStringLt a b = true := by
  induction j generalizing a b with
  | zero =>
    cases a with
    | nil => simp at ha
    | cons x xs =>
      cases b with
      | nil => simp at hb
      | cons y ys =>
        simp at ha hb
        subst ha; subst hb
        simp [goStringLt_cons_cons, huv]
  | succ j ih =>
    cases a with
    | nil => simp at ha
    | cons x xs =>
      cases b with
      | nil => simp at hb
      | cons y ys =>
        simp [List.take_succ_cons] at ht
        simp at ha hb
        obtain ⟨hxy, ht'⟩ := ht
        subst hxy
        simp [goStringLt_cons_cons]
        exact ih ht' ha hb

theorem goStringLt_extract {a b : List Nat} (h : goStringLt a b = true) :
    ∃ j, a.take j = b.take j ∧
      ((a[j]? = none ∧ ∃ w, b[j]? = some w) ∨
       (∃ u v, a[j]? = some u ∧ b[j]? = some v ∧ u < v)) := by
  induction a generalizing b with
  | nil =>
    cases b with
    | nil => simp [goStringLt] at h
    | cons y ys => exact ⟨0, by simp, Or.inl ⟨by simp, y, by simp⟩⟩
  | cons x xs ih =>
    cases b with
    | nil => simp [goStringLt_cons_nil] at h
    | cons y ys =>
      rw [goStringLt_cons_cons] at h
      rcases Nat.lt_trichotomy x y with hxy | hxy | hxy
      · exact ⟨0, by simp, Or.inr ⟨x, y, by simp, by simp, hxy⟩⟩
      · subst hxy
        simp at h
        obtain ⟨j, ht, hrest⟩ := ih h
        exact ⟨j + 1, by simp [List.take_succ_cons, ht], by simpa using hrest⟩
      · rw [if_neg (by omega), if_pos hxy] at h
        simp at h

theorem goStringLt_trans {a b c : List Nat} (hab : goStringLt a b = true)
    (hbc : goStringLt b c = true) : goStringLt a c = true := by
  induction a generalizing b c with
  | nil =>
    cases b with
    | nil => simp [goStringLt] at hab
    | cons y ys =>
      cases c with
      | nil => simp [goStringLt_cons_nil] at hbc
      | cons z zs => rfl
  | cons x xs ih =>
    cases b with
    | nil => simp [goStringLt_cons_nil] at hab
    | cons y ys =>
      cases c with
      | nil => simp [goStringLt_cons_nil] at hbc
      | cons z zs =>
        rw [goStringLt_cons_cons] at hab hbc ⊢
        rcases Nat.lt_trichotomy x y with hxy | hxy | hxy
        · rcases Nat.lt_trichotomy y z with hyz | hyz | hyz
          · rw [if_pos (by omega)]
          · subst hyz; rw [if_pos hxy]
          · rw [if_neg (by omega), if_pos hyz] at hbc; simp at hbc
        · subst hxy
          simp at hab
          rcases Nat.lt_trichotomy x z with hyz | hyz | hyz
          · rw [if_pos hyz]
          · subst hyz
            simp at hbc ⊢
            exact ih hab hbc
          · rw [if_neg (by omega), if_pos hyz] at hbc; simp at hbc
        · rw [if_neg (by omega), if_pos hxy] at hab; simp at hab

theorem goStringLt_asymm {a b : List Nat} (h : goStringLt a b = true) :
    goStringLt b a = false := by
  induction a generalizing b with
  | nil =>
    cases b with
    | nil => simp [goStringLt] at h
    | cons y ys => rfl
  | cons x xs ih =>
    cases b with
    | nil => simp [goStringLt_cons_nil] at h
    | cons y ys =>
      rw [goStringLt_cons_cons] at h ⊢
      rcases Nat.lt_trichotomy x y with hxy | hxy | hxy
      · rw [if_neg (by omega), if_pos hxy]
      · subst hxy
        simp at h ⊢
        exact ih h
      · rw [if_neg (by omega), if_pos hxy] at h; simp at h

theorem runesGT_cons_cons (a b : Nat) (as bs : List Nat) :
    runesGreaterThan (a :: as) (b :: bs) =
      if b < a then true else if a < b then false else runesGreaterThan as bs := rfl

theorem runesGT_extract {x y : List Nat} (h : runesGreaterThan x y = true) :
    ∃ j u v, x.take j = y.take j ∧ y[j]? = some u ∧ x[j]? = some v ∧ u < v := by
  induction x generalizing y with
  | nil => simp [runesGreaterThan] at h
  | cons a as ih =>
    cases y with
    | nil => simp [runesGreaterThan] at h
    | cons b bs =>
      rw [runesGT_cons_cons] at h
      rcases Nat.lt_trichotomy b a with hba | hba | hba
      · exact ⟨0, b, a, by simp, by simp, by simp, hba⟩
      · subst hba
        simp at h
        obtain ⟨j, u, v, ht, hy, hx, huv⟩ := ih h
        exact ⟨j + 1, u, v, by simp [List.take_succ_cons, ht], by simpa using hy,
          by simpa using hx, huv⟩
      · rw [if_neg (by omega), if_pos hba] at h; simp at h

theorem runesGT_of_take_getElem? {x y : List Nat} {j : Nat} {u v : Nat}
    (ht : x.take j = y.take j) (hy : y[j]? = some u) (hx : x[j]? = some v)
    (huv : u < v) : runesGreaterThan x y = true := by
  induction j generalizing x y with
  | zero =>
    cases x with
    | nil => simp at hx
    | cons a as =>
      cases y with
      | nil => simp at hy
      | cons b bs =>
        simp at hx hy
        subst hx; subst hy
        simp [runesGT_cons_cons, huv]
  | succ j ih =>
    cases x with
    | nil => simp at hx
    | cons a as =>
      cases y with
      | nil => simp at hy
      | cons b bs =>
        simp [List.take_succ_cons] at ht
        simp at hx hy
        obtain ⟨hab, ht'⟩ := ht
        subst hab
        simp [runesGT_cons_cons]
        exact ih ht' hy hx

theorem goStringLt_eq_length_extract {a b : List Nat} (hlen : a.length = b.length)
    (h : goStringLt a b = true) :
    ∃ j u v, a.take j = b.take j ∧ a[j]? = some u ∧ b[j]? = some v ∧ u < v := by
  obtain ⟨j, ht, hrest⟩ := goStringLt_extract h
  rcases hrest with ⟨hnone, w, hw⟩ | ⟨u, v, ha, hb, huv⟩
  · exfalso
    have h1 : a.length ≤ j := List.getElem?_eq_none_iff.mp hnone
    have h2 : j < b.length := getElem?_some_lt hw
    omega
  · exact ⟨j, u, v, ht, ha, hb, huv⟩

theorem goStringLt_replicate_min {t : List Nat} {mn : Nat}
    (hge : ∀ ch ∈ t, mn ≤ ch) (hne : t ≠ List.replicate t.length mn) :
    goStringLt (List.replicate t.length mn) t = true := by
  induction t with
  | nil => simp at hne
  | cons c cs ih =>
    have hc : mn ≤ c := hge c (by simp)
    by_cases hlt : mn < c
    · simp [List.replicate_succ, goStringLt_cons_cons, hlt]
    · have hceq : c = mn := by omega
      subst hceq
      have hcs : cs ≠ List.replicate cs.length c := by
        intro hcontra
        apply hne
        simpa [List.replicate_succ] using hcontra
      have := ih (fun ch hch => hge ch (by simp [hch])) hcs
      simpa [List.replicate_succ, goStringLt_cons_cons] using this

theorem WF.runes_nodup {c : CSet} (hwf : WF c) : c.runes.Nodup :=
  hwf.2.2.1.imp (fun hlt => Nat.ne_of_lt hlt)

theorem WF.sorted_lt {c : CSet} (hwf : WF c) {i j u v : Nat}
    (hu : c.runes[i]? = some u) (hv : c.runes[j]? = some v) :
    i < j ↔ u < v := by
  obtain ⟨-, -, hpw, -⟩ := hwf
  rw [List.pairwise_iff_getElem] at hpw
  have hi : i < c.runes.length := getElem?_some_lt hu
  have hj : j < c.runes.length := getElem?_some_lt hv
  have hu' : c.runes[i] = u := by
    rw [List.getElem?_eq_getElem hi] at hu
    exact Option.some_injective _ hu
  have hv' : c.runes[j] = v := by
    rw [List.getElem?_eq_getElem hj] at hv
    exact Option.some_injective _ hv
  constructor
  · intro hij
    have := hpw i j hi hj hij
    omega
  · intro huv
    rcases Nat.lt_trichotomy i j with h | h | h
    · exact h
    · subst h; omega
    · have := hpw j i hj hi h
      omega

theorem WF.rank {c : CSet} (hwf : WF c) {r : Nat} (hr : r ∈ c.runes) :
    ∃ i, c.tbl[r]? = some i ∧ c.runes[i]? = some r := by
  obtain ⟨i, hi⟩ := List.mem_iff_getElem?.mp hr
  refine ⟨i, ?_, hi⟩
  have hlt : i < c.runes.length := getElem?_some_lt hi
  have := hwf.2.2.2.2.1 i hlt
  have hgd : c.runes.getD i 0 = r := by
    rw [List.getD_eq_getElem?_getD, hi]
    rfl
  rwa [hgd] at this

theorem WF.minChar {c : CSet} (hwf : WF c) :
    ∃ mn, CSet.MinOp c = some mn ∧ mn ∈ c.runes ∧ ∀ r ∈ c.runes, mn ≤ r := by
  have hne := hwf.1
  have hlen : 0 < c.runes.length := List.length_pos.mpr hne
  have h0 : c.runes[0]? = some c.runes[0] := List.getElem?_eq_getElem hlen
  refine ⟨c.runes[0], h0, List.getElem?_mem h0, ?_⟩
  intro r hr
  obtain ⟨j, hj⟩ := List.mem_iff_getElem?.mp hr
  rcases Nat.eq_zero_or_pos j with h | h
  · subst h
    rw [h0] at hj
    have := Option.some_injective _ hj
    omega
  · have := (hwf.sorted_lt h0 hj).mp h
    omega

theorem WF.maxChar {c : CSet} (hwf : WF c) :
    ∃ mx, CSet.MaxOp c = some mx ∧ mx ∈ c.runes := by
  obtain ⟨hne, -⟩ := hwf
  have hlen : 0 < c.runes.length := List.length_pos.mpr hne
  have h0 : c.runes[c.runes.length - 1]? = some c.runes[c.runes.length - 1] :=
    List.getElem?_eq_getElem (by omega)
  exact ⟨c.runes[c.runes.length - 1], h0, List.getElem?_mem h0⟩

theorem mid_mem {c : CSet} {a b m : Nat} (h : CSet.MidOp c a b = some m) :
    m ∈ c.runes := by
  rw [CSet.MidOp] at h
  rcases htbla : c.tbl[a]? with _ | ia
  · rw [htbla] at h; simp at h
  · rw [htbla] at h
    rcases htblb : c.tbl[b]? with _ | ib
    · rw [htblb] at h; simp at h
    · rw [htblb] at h
      exact List.getElem?_mem h

theorem WF.mid_between {c : CSet} (hwf : WF c) {a b m : Nat}
    (ha : a ∈ c.runes) (hb : b ∈ c.runes) (hab : a < b)
    (h : CSet.MidOp c a b = some m) : a ≤ m ∧ m < b := by
  obtain ⟨ia, htbla, hra⟩ := hwf.rank ha
  obtain ⟨ib, htblb, hrb⟩ := hwf.rank hb
  have hiab : ia < ib := (hwf.sorted_lt hra hrb).mpr hab
  rw [CSet.MidOp, htbla, htblb] at h
  simp only [if_neg (by omega : ¬ ib < ia)] at h
  have hblen : ib < c.runes.length := getElem?_some_lt hrb
  have hmodeq : (ia + ib) / 2 % c.runes.length = (ia + ib) / 2 :=
    Nat.mod_eq_of_lt (by omega)
  rw [hmodeq] at h
  constructor
  · rcases Nat.lt_or_ge ia ((ia + ib) / 2) with hlt | hge
    · exact Nat.le_of_lt ((hwf.sorted_lt hra h).mp hlt)
    · have heq : (ia + ib) / 2 = ia := by omega
      rw [heq, hra] at h
      have := Option.some_injective _ h
      omega
  · exact (hwf.sorted_lt h hrb).mp (by omega)

theorem WF.next_some {c : CSet} (hwf : WF c) {r nx : Nat} (hr : r ∈ c.runes)
    (h : CSet.NextOp c r = some (some nx)) : r < nx ∧ nx ∈ c.runes := by
  obtain ⟨i, htbl, hri⟩ := hwf.rank hr
  simp only [CSet.NextOp, htbl] at h
  by_cases hlast : i = c.runes.length - 1
  · rw [if_pos hlast] at h; simp at h
  · rw [if_neg hlast] at h
    rcases hnx : c.runes[i + 1]? with _ | nx'
    · rw [hnx] at h; simp at h
    · rw [hnx] at h
      simp at h
      subst h
      exact ⟨(hwf.sorted_lt hri hnx).mp (by omega), List.getElem?_mem hnx⟩

theorem WF.prev_some {c : CSet} (hwf : WF c) {r pv : Nat} (hr : r ∈ c.runes)
    (h : CSet.PrevOp c r = some (some pv)) : pv < r ∧ pv ∈ c.runes := by
  obtain ⟨i, htbl, hri⟩ := hwf.rank hr
  simp only [CSet.PrevOp, htbl] at h
  by_cases hzero : i = 0
  · rw [if_pos hzero] at h; simp at h
  · rw [if_neg hzero] at h
    rcases hpv : c.runes[i - 1]? with _ | pv'
    · rw [hpv] at h; simp at h
    · rw [hpv] at h
      simp at h
      subst h
      exact ⟨(hwf.sorted_lt hpv hri).mp (by omega), List.getElem?_mem hpv⟩

theorem WF.prev_none_iff {c : CSet} (hwf : WF c) {r mn : Nat} (hr : r ∈ c.runes)
    (hmn : CSet.MinOp c = some mn) :
    CSet.PrevOp c r = some none ↔ r = mn := by
  obtain ⟨i, htbl, hri⟩ := hwf.rank hr
  simp only [CSet.PrevOp, htbl]
  rw [CSet.MinOp] at hmn
  constructor
  · intro h
    by_cases hzero : i = 0
    · subst hzero
      rw [hri] at hmn
      exact Option.some_injective _ hmn
    · rw [if_neg hzero] at h
      rcases hpv : c.runes[i - 1]? with _ | pv'
      · have h1 := List.getElem?_eq_none_iff.mp hpv
        have h2 := getElem?_some_lt hri
        omega
      · rw [hpv] at h; simp at h
  · intro h
    subst h
    have hi0 : i = 0 :=
      List.getElem?_inj (getElem?_some_lt hri) hwf.runes_nodup (by rw [hri, hmn])
    rw [if_pos hi0]

theorem WF.min_le {c : CSet} (hwf : WF c) {mn : Nat} (hmn : CSet.MinOp c = some mn) :
    ∀ r ∈ c.runes, mn ≤ r := by
  obtain ⟨mn', hmn', -, hle⟩ := hwf.minChar
  rw [hmn] at hmn'
  have := Option.some_injective _ hmn'
  subst this
  exact hle

theorem getElem?_append_mid (l t : List Nat) (x : Nat) :
    (l ++ x :: t)[l.length]? = some x := by
  rw [List.getElem?_append_right (Nat.le_refl _)]
  simp

theorem runesGT_append {npre ppre : List Nat} (h : runesGreaterThan npre ppre = true)
    (x y : List Nat) : runesGreaterThan (npre ++ x) (ppre ++ y) = true := by
  obtain ⟨j, u, v, ht, hp, hn, huv⟩ := runesGT_extract h
  have hjp : j < ppre.length := getElem?_some_lt hp
  have hjn : j < npre.length := getElem?_some_lt hn
  refine runesGT_of_take_getElem? (j := j) ?_ ?_ ?_ huv
  · rw [List.take_append_of_le_length (by omega), List.take_append_of_le_length (by omega)]
    exact ht
  · rw [List.getElem?_append_left hjp]
    exact hp
  · rw [List.getElem?_append_left hjn]
    exact hn

theorem gsl_head_lt_of_state {p q : Nat} {ps qs : List Nat} (hpq : p ≠ q)
    (hgsl : goStringLt (p :: ps) (q :: qs) = true) : p < q := by
  rw [goStringLt_cons_cons] at hgsl
  rcases Nat.lt_trichotomy p q with h | h | h
  · exact h
  · exact absurd h hpq
  · rw [if_neg (by omega), if_pos h] at hgsl
    simp at hgsl

theorem loopBetween_ok {c : CSet} (hwf : WF c) {mid mn : Nat}
    (hmn : CSet.MinOp c = some mn) :
    ∀ ps qs ppre npre res,
    (∀ ch ∈ ps, ch ∈ c.runes) → (∀ ch ∈ qs, ch ∈ c.runes) →
    (∀ ch ∈ ppre, ch ∈ c.runes) →
    ((ppre = npre ∧ goStringLt ps qs = true) ∨ runesGreaterThan npre ppre = true) →
    loopBetween c mid ppre npre ps qs = some (some res) →
    goStringLt (ppre ++ ps) res = true ∧
      ∃ j u v, res.take j = (npre ++ qs).take j ∧ res[j]? = some u ∧
        (npre ++ qs)[j]? = some v ∧ u < v ∧ mn ≤ u := by
  intro ps
  induction ps with
  | nil =>
    intro qs ppre npre res _ _ _ _ hrun
    simp [loopBetween] at hrun
  | cons p ps' ih =>
    intro qs ppre npre res hpmem hqmem hppremem hstate hrun
    cases qs with
    | nil => simp [loopBetween] at hrun
    | cons q qs' =>
      have hpmem' : ∀ ch ∈ ps', ch ∈ c.runes := fun ch h => hpmem ch (by simp [h])
      have hqmem' : ∀ ch ∈ qs', ch ∈ c.runes := fun ch h => hqmem ch (by simp [h])
      have hpr : p ∈ c.runes := hpmem p (by simp)
      have hqr : q ∈ c.runes := hqmem q (by simp)
      rw [loopBetween] at hrun
      by_cases hpq : p = q
      · subst hpq
        rw [if_pos rfl] at hrun
        have hnewstate :
            ((ppre ++ [p] = npre ++ [p] ∧ goStringLt ps' qs' = true) ∨
              runesGreaterThan (npre ++ [p]) (ppre ++ [p]) = true) := by
          rcases hstate with ⟨heq, hgsl⟩ | hgt
          · subst heq
            simp [goStringLt_cons_cons] at hgsl
            exact Or.inl ⟨rfl, hgsl⟩
          · exact Or.inr (runesGT_append hgt [p] [p])
        have hppremem' : ∀ ch ∈ ppre ++ [p], ch ∈ c.runes := by
          intro ch h
          rcases List.mem_append.mp h with h | h
          · exact hppremem ch h
          · simp at h; subst h; exact hpr
        obtain ⟨hlt, hex⟩ := ih qs' (ppre ++ [p]) (npre ++ [p]) res hpmem' hqmem'
          hppremem' hnewstate hrun
        constructor
        · simpa using hlt
        · simpa using hex
      · rw [if_neg hpq] at hrun
        rcases hmid : CSet.MidOp c p q with _ | m
        · rw [hmid] at hrun; simp at hrun
        · simp only [hmid] at hrun
          have hmmem : m ∈ c.runes := mid_mem hmid
          have hmnle : mn ≤ m := hwf.min_le hmn m hmmem
          by_cases h1 : p < m
          · rw [if_pos h1] at hrun
            simp only [fillRep_some, Option.some.injEq] at hrun
            subst hrun
            constructor
            · rw [goStringLt_append_left, goStringLt_cons_cons, if_pos h1]
            · rcases hstate with ⟨heq, hgsl⟩ | hgt
              · subst heq
                have hpltq : p < q := gsl_head_lt_of_state hpq hgsl
                have hmq : m < q := (hwf.mid_between hpr hqr hpltq hmid).2
                exact ⟨ppre.length, m, q,
                  by rw [List.take_left, List.take_left],
                  getElem?_append_mid _ _ _, getElem?_append_mid _ _ _, hmq, hmnle⟩
              · obtain ⟨j, u, v, ht, hp', hn', huv⟩ := runesGT_extract hgt
                have hjp : j < ppre.length := getElem?_some_lt hp'
                have hjn : j < npre.length := getElem?_some_lt hn'
                refine ⟨j, u, v, ?_, ?_, ?_, huv, ?_⟩
                · rw [List.take_append_of_le_length (by omega),
                    List.take_append_of_le_length (by omega)]
                  exact ht.symm
                · rw [List.getElem?_append_left hjp]; exact hp'
                · rw [List.getElem?_append_left hjn]; exact hn'
                · exact hwf.min_le hmn u (hppremem u (List.getElem?_mem hp'))
          · rw [if_neg h1] at hrun
            by_cases h2 : m < q ∧ runesGreaterThan npre ppre = true
            · rw [if_pos (by exact ⟨h2.1, h2.2⟩)] at hrun
              simp only [fillRep_some, Option.some.injEq] at hrun
              subst hrun
              obtain ⟨j, u, v, ht, hp', hn', huv⟩ := runesGT_extract h2.2
              have hjp : j < ppre.length := getElem?_some_lt hp'
              have hjn : j < npre.length := getElem?_some_lt hn'
              constructor
              · refine goStringLt_of_take_getElem? (j := j) ?_ ?_ ?_ huv
                · rw [List.take_append_of_le_length (by omega),
                    List.take_append_of_le_length (by omega)]
                  exact ht.symm
                · rw [List.getElem?_append_left hjp]; exact hp'
                · rw [List.getElem?_append_left hjn]; exact hn'
              · exact ⟨npre.length, m, q, by rw [List.take_left, List.take_left],
                  getElem?_append_mid _ _ _, getElem?_append_mid _ _ _, h2.1, hmnle⟩
            · rw [if_neg h2] at hrun
              have hnewstate :
                  ((ppre ++ [p] = npre ++ [q] ∧ goStringLt ps' qs' = true) ∨
                    runesGreaterThan (npre ++ [q]) (ppre ++ [p]) = true) := by
                rcases hstate with ⟨heq, hgsl⟩ | hgt
                · subst heq
                  have hpltq : p < q := gsl_head_lt_of_state hpq hgsl
                  refine Or.inr (runesGT_of_take_getElem? (j := ppre.length)
                    ?_ ?_ ?_ hpltq)
                  · rw [List.take_left, List.take_left]
                  · exact getElem?_append_mid _ _ _
                  · exact getElem?_append_mid _ _ _
                · exact Or.inr (runesGT_append hgt [q] [p])
              have hppremem' : ∀ ch ∈ ppre ++ [p], ch ∈ c.runes := by
                intro ch h
                rcases List.mem_append.mp h with h | h
                · exact hppremem ch h
                · simp at h; subst h; exact hpr
              obtain ⟨hlt, hex⟩ := ih qs' (ppre ++ [p]) (npre ++ [q]) res hpmem'
                hqmem' hppremem' hnewstate hrun
              constructor
              · simpa using hlt
              · simpa using hex

theorem WF.mid_some {c : CSet} (hwf : WF c) {a b : Nat} (ha : a ∈ c.runes)
    (hb : b ∈ c.runes) : ∃ m, CSet.MidOp c a b = some m := by
  obtain ⟨ia, htbla, -⟩ := hwf.rank ha
  obtain ⟨ib, htblb, -⟩ := hwf.rank hb
  simp only [CSet.MidOp, htbla, htblb]
  have hlen : 0 < c.runes.length := List.length_pos.mpr hwf.1
  have hmod : ((ia + if ib < ia then ib + c.runes.length else ib) / 2) % c.runes.length
      < c.runes.length := Nat.mod_lt _ hlen
  exact ⟨_, List.getElem?_eq_getElem hmod⟩

theorem padKeys_eq {c : CSet} {mn : Nat} (hmn : CSet.MinOp c = some mn) (p n : List Nat) :
    padKeys c p n = some (p ++ List.replicate (n.length - p.length) mn,
      n ++ List.replicate (p.length - n.length) mn) := by
  simp only [padKeys, hmn, fillRep_some]
  by_cases h1 : n.length < p.length
  · rw [if_pos h1]
    have h0 : n.length - p.length = 0 := by omega
    simp [h0]
  · rw [if_neg h1]
    by_cases h2 : p.length < n.length
    · rw [if_pos h2]
      have h0 : p.length - n.length = 0 := by omega
      simp [h0]
    · rw [if_neg h2]
      have h0 : p.length - n.length = 0 := by omega
      have h0' : n.length - p.length = 0 := by omega
      simp [h0, h0']

theorem gsl_of_prefix_lt (rep : List Nat) {p k : List Nat}
    (h : goStringLt (p ++ rep) k = true) : goStringLt p k = true := by
  cases rep with
  | nil => simpa using h
  | cons w t => exact goStringLt_trans (goStringLt_proper_pre p w t) h

theorem gsl_lt_unpad {k n : List Nat} (b mn j : Nat) {u v : Nat}
    (ht : k.take j = (n ++ List.replicate b mn).take j) (hu : k[j]? = some u)
    (hv : (n ++ List.replicate b mn)[j]? = some v) (huv : u < v) (hmnu : mn ≤ u) :
    goStringLt k n = true := by
  by_cases hj : j < n.length
  · refine goStringLt_of_take_getElem? (j := j) ?_ hu ?_ huv
    · rw [ht, List.take_append_of_le_length (by omega)]
    · rw [List.getElem?_append_left hj] at hv
      exact hv
  · exfalso
    rw [List.getElem?_append_right (by omega)] at hv
    have : v ∈ List.replicate b mn := List.getElem?_mem hv
    have := List.eq_of_mem_replicate this
    omega

theorem padded_lt {c : CSet} (hwf : WF c) {mn : Nat} (hmn : CSet.MinOp c = some mn)
    {p n : List Nat} (hnmem : ∀ ch ∈ n, ch ∈ c.runes)
    (hlt : goStringLt p n = true)
    (hnotext : ¬(n.take p.length = p ∧ ∀ ch ∈ n.drop p.length, ch = mn)) :
    goStringLt (p ++ List.replicate (n.length - p.length) mn)
      (n ++ List.replicate (p.length - n.length) mn) = true := by
  obtain ⟨j, ht, hrest⟩ := goStringLt_extract hlt
  rcases hrest with ⟨hnone, w, hw⟩ | ⟨u, v, hu, hv, huv⟩
  · -- p is a proper prefix of n
    have hplen : p.length ≤ j := List.getElem?_eq_none_iff.mp hnone
    have hjn : j < n.length := getElem?_some_lt hw
    have hptake : p.take j = p := List.take_of_length_le hplen
    have hpfx : n.take p.length = p := by
      have h1 : n.take p.length = (n.take j).take p.length := by
        rw [List.take_take, Nat.min_eq_left hplen]
      rw [h1, ← ht, hptake]
      simp
    have hrep0 : p.length - n.length = 0 := by omega
    have hdropne : ¬ ∀ ch ∈ n.drop p.length, ch = mn := by
      intro hcontra
      exact hnotext ⟨hpfx, hcontra⟩
    have hnsplit : p ++ List.drop p.length n = n := by
      have h2 := List.take_append_drop p.length n
      rw [hpfx] at h2
      exact h2
    have htlen : (List.drop p.length n).length = n.length - p.length :=
      List.length_drop _ _
    have htmem : ∀ ch ∈ List.drop p.length n, mn ≤ ch := by
      intro ch hch
      refine hwf.min_le hmn ch (hnmem ch ?_)
      rw [← hnsplit]
      exact List.mem_append_right _ hch
    have htne : List.drop p.length n ≠ List.replicate (List.drop p.length n).length mn := by
      intro hcontra
      apply hdropne
      intro ch hch
      rw [hcontra] at hch
      exact List.eq_of_mem_replicate hch
    have hgsl := goStringLt_replicate_min htmem htne
    have hmain : goStringLt (p ++ List.replicate (List.drop p.length n).length mn)
        (p ++ List.drop p.length n) = true := by
      rw [goStringLt_append_left]
      exact hgsl
    rw [hnsplit, htlen] at hmain
    rw [hrep0]
    simpa using hmain
  · -- strict difference within both keys
    have hjp : j < p.length := getElem?_some_lt hu
    have hjn : j < n.length := getElem?_some_lt hv
    refine goStringLt_of_take_getElem? (j := j) ?_ ?_ ?_ huv
    · rw [List.take_append_of_le_length (by omega),
        List.take_append_of_le_length (by omega)]
      exact ht
    · rw [List.getElem?_append_left hjp]
      exact hu
    · rw [List.getElem?_append_left hjn]
      exact hv

theorem betweenBoth_bounds {c : CSet} (hwf : WF c) {mn : Nat}
    (hmn : CSet.MinOp c = some mn) {p n k : List Nat}
    (hpmem : ∀ ch ∈ p, ch ∈ c.runes) (hnmem : ∀ ch ∈ n, ch ∈ c.runes)
    (hlt : goStringLt p n = true)
    (hnotext : ¬(n.take p.length = p ∧ ∀ ch ∈ n.drop p.length, ch = mn))
    (hrun : betweenBoth c p n = some (Except.ok k)) :
    goStringLt p k = true ∧ goStringLt k n = true := by
  have hmnmem : mn ∈ c.runes := by
    have h := hmn
    rw [CSet.MinOp] at h
    exact List.getElem?_mem h
  obtain ⟨mx, hmx, hmxmem⟩ := hwf.maxChar
  obtain ⟨mid, hmid⟩ := hwf.mid_some hmnmem hmxmem
  rw [betweenBoth, padKeys_eq hmn] at hrun
  simp only [hmn, hmx, hmid] at hrun
  set pr := p ++ List.replicate (n.length - p.length) mn with hprdef
  set nr := n ++ List.replicate (p.length - n.length) mn with hnrdef
  have hprmem : ∀ ch ∈ pr, ch ∈ c.runes := by
    intro ch h
    rcases List.mem_append.mp h with h | h
    · exact hpmem ch h
    · rw [List.eq_of_mem_replicate h]; exact hmnmem
  have hnrmem : ∀ ch ∈ nr, ch ∈ c.runes := by
    intro ch h
    rcases List.mem_append.mp h with h | h
    · exact hnmem ch h
    · rw [List.eq_of_mem_replicate h]; exact hmnmem
  have hprnr : goStringLt pr nr = true := padded_lt hwf hmn hnmem hlt hnotext
  rcases hloop : loopBetween c mid [] [] pr nr with _ | res'
  · rw [hloop] at hrun; simp at hrun
  · rw [hloop] at hrun
    cases res' with
    | none =>
      -- growth: k = pr ++ [mid]
      simp only [Option.some.injEq, Except.ok.injEq] at hrun
      subst hrun
      constructor
      · rcases hrep : List.replicate (n.length - p.length) mn with _ | ⟨w, t⟩
        · rw [hprdef, hrep]
          simp only [List.append_nil]
          exact goStringLt_proper_pre p mid []
        · rw [hprdef, hrep]
          rw [List.append_assoc, List.cons_append]
          exact goStringLt_proper_pre p w (t ++ [mid])
      · have hlen : pr.length = nr.length := by
          rw [hprdef, hnrdef]
          simp only [List.length_append, List.length_replicate]
          omega
        obtain ⟨j, u, v, ht, hu, hv, huv⟩ := goStringLt_eq_length_extract hlen hprnr
        have hjp : j < pr.length := getElem?_some_lt hu
        refine gsl_lt_unpad (p.length - n.length) mn j ?_ ?_ ?_ huv ?_
        · rw [List.take_append_of_le_length (by omega), ht, hnrdef]
        · rw [List.getElem?_append_left hjp]
          exact hu
        · rw [← hnrdef]
          exact hv
        · exact hwf.min_le hmn u (hprmem u (List.getElem?_mem hu))
    | some res =>
      simp only [Option.some.injEq, Except.ok.injEq] at hrun
      subst hrun
      obtain ⟨hlt', j, u, v, ht, hu, hv, huv, hmnu⟩ :=
        loopBetween_ok hwf hmn pr nr [] [] _ hprmem hnrmem (by simp)
          (Or.inl ⟨rfl, hprnr⟩) hloop
      constructor
      · rw [List.nil_append] at hlt'
        exact gsl_of_prefix_lt (List.replicate (n.length - p.length) mn)
          (by rw [← hprdef]; exact hlt')
      · rw [List.nil_append] at ht hv
        exact gsl_lt_unpad (p.length - n.length) mn j
          (by rw [ht, hnrdef]) hu (by rw [← hnrdef]; exact hv) huv hmnu

theorem incrFromRight_gt {c : CSet} (hwf : WF c) {mn : Nat}
    (hmn : CSet.MinOp c = some mn) :
    ∀ l res, (∀ ch ∈ l, ch ∈ c.runes) →
    incrFromRight c l = some (some res) → goStringLt l res = true := by
  intro l
  induction l with
  | nil =>
    intro res _ hrun
    simp [incrFromRight] at hrun
  | cons r rest ih =>
    intro res hmem hrun
    have hrmem : r ∈ c.runes := hmem r (by simp)
    have hmem' : ∀ ch ∈ rest, ch ∈ c.runes := fun ch h => hmem ch (by simp [h])
    rw [incrFromRight] at hrun
    rcases hrest : incrFromRight c rest with _ | ⟨_ | newRest⟩
    · rw [hrest] at hrun; simp at hrun
    · simp only [hrest] at hrun
      rcases hnx : CSet.NextOp c r with _ | ⟨_ | inc⟩
      · rw [hnx] at hrun; simp at hrun
      · rw [hnx] at hrun; simp at hrun
      · simp only [hnx, hmn, fillRep_some] at hrun
        simp only [Option.some.injEq] at hrun
        subst hrun
        have hlt : r < inc := (hwf.next_some hrmem hnx).1
        rw [goStringLt_cons_cons, if_pos hlt]
    · simp only [hrest] at hrun
      simp only [Option.some.injEq] at hrun
      subst hrun
      have := ih newRest hmem' hrest
      simp [goStringLt_cons_cons, this]

theorem decrFromRight_lt {c : CSet} (hwf : WF c) {mx : Nat}
    (hmx : CSet.MaxOp c = some mx) :
    ∀ l res, (∀ ch ∈ l, ch ∈ c.runes) →
    decrFromRight c l = some (some res) → goStringLt res l = true := by
  intro l
  induction l with
  | nil =>
    intro res _ hrun
    simp [decrFromRight] at hrun
  | cons r rest ih =>
    intro res hmem hrun
    have hrmem : r ∈ c.runes := hmem r (by simp)
    have hmem' : ∀ ch ∈ rest, ch ∈ c.runes := fun ch h => hmem ch (by simp [h])
    rw [decrFromRight] at hrun
    rcases hrest : decrFromRight c rest with _ | ⟨_ | newRest⟩
    · rw [hrest] at hrun; simp at hrun
    · simp only [hrest] at hrun
      rcases hpv : CSet.PrevOp c r with _ | ⟨_ | dec⟩
      · rw [hpv] at hrun; simp at hrun
      · rw [hpv] at hrun; simp at hrun
      · simp only [hpv, hmx, fillRep_some] at hrun
        simp only [Option.some.injEq] at hrun
        subst hrun
        have hlt : dec < r := (hwf.prev_some hrmem hpv).1
        rw [goStringLt_cons_cons, if_pos hlt]
    · simp only [hrest] at hrun
      simp only [Option.some.injEq] at hrun
      subst hrun
      have := ih newRest hmem' hrest
      simp [goStringLt_cons_cons, this]

theorem between_bounds {c : CSet} (hwf : WF c) {mn : Nat}
    (hmn : CSet.MinOp c = some mn) {init p n k : List Nat}
    (hpmem : ∀ ch ∈ p, ch ∈ c.runes) (hnmem : ∀ ch ∈ n, ch ∈ c.runes)
    (hboth : p ≠ [] → n ≠ [] → goStringLt p n = true ∧
      ¬(n.take p.length = p ∧ ∀ ch ∈ n.drop p.length, ch = mn))
    (hrun : between c init p n = some (Except.ok k)) :
    (p ≠ [] → goStringLt p k = true) ∧ (n ≠ [] → goStringLt k n = true) := by
  rw [between] at hrun
  by_cases hpe : p = []
  · by_cases hne : n = []
    · exact ⟨fun h => absurd hpe h, fun h => absurd hne h⟩
    · subst hpe
      rw [if_neg (by simp [hne]), if_neg hne, if_pos rfl] at hrun
      refine ⟨fun h => absurd rfl h, fun _ => ?_⟩
      rcases hdec : decrFromRight c n with _ | ⟨_ | res⟩
      · rw [hdec] at hrun; simp at hrun
      · rw [hdec] at hrun; simp at hrun
      · rw [hdec] at hrun
        simp only [Option.some.injEq, Except.ok.injEq] at hrun
        subst hrun
        exact decrFromRight_lt hwf (hwf.maxChar.choose_spec.1) n res hnmem hdec
  · by_cases hne : n = []
    · subst hne
      rw [if_neg (by simp [hpe]), if_pos rfl] at hrun
      refine ⟨fun _ => ?_, fun h => absurd rfl h⟩
      rcases hinc : incrFromRight c p with _ | ⟨_ | res⟩
      · rw [hinc] at hrun; simp at hrun
      · simp only [hinc, hmn] at hrun
        rcases hnx : CSet.NextOp c mn with _ | ⟨_ | ntm⟩
        · rw [hnx] at hrun; simp at hrun
        · rw [hnx] at hrun; simp at hrun
        · rw [hnx] at hrun
          simp only [Option.some.injEq, Except.ok.injEq] at hrun
          subst hrun
          exact goStringLt_proper_pre p ntm []
      · rw [hinc] at hrun
        simp only [Option.some.injEq, Except.ok.injEq] at hrun
        subst hrun
        exact incrFromRight_gt hwf hmn p res hpmem hinc
    · obtain ⟨hlt, hnotext⟩ := hboth hpe hne
      rw [if_neg (by simp [hpe]), if_neg hne, if_neg hpe,
        if_neg (by rw [goStringLt_asymm hlt]; simp)] at hrun
      have := betweenBoth_bounds hwf hmn hpmem hnmem hlt hnotext hrun
      exact ⟨fun _ => this.1, fun _ => this.2⟩

theorem WF.mn_mem {c : CSet} (hwf : WF c) {mn : Nat} (hmn : CSet.MinOp c = some mn) :
    mn ∈ c.runes := by
  rw [CSet.MinOp] at hmn
  exact List.getElem?_mem hmn

theorem WF.mx_mem {c : CSet} (hwf : WF c) {mx : Nat} (hmx : CSet.MaxOp c = some mx) :
    mx ∈ c.runes := by
  rw [CSet.MaxOp] at hmx
  exact List.getElem?_mem hmx

theorem WF.prev_cases {c : CSet} (hwf : WF c) {r : Nat} (hr : r ∈ c.runes) :
    CSet.PrevOp c r = some none ∨ ∃ pv, CSet.PrevOp c r = some (some pv) := by
  obtain ⟨i, htbl, hri⟩ := hwf.rank hr
  simp only [CSet.PrevOp, htbl]
  by_cases hzero : i = 0
  · rw [if_pos hzero]
    exact Or.inl rfl
  · rw [if_neg hzero]
    have hlen : i < c.runes.length := getElem?_some_lt hri
    have : i - 1 < c.runes.length := by omega
    rw [List.getElem?_eq_getElem this]
    exact Or.inr ⟨_, rfl⟩

theorem decrFromRight_none_iff {c : CSet} (hwf : WF c) {mn : Nat}
    (hmn : CSet.MinOp c = some mn) :
    ∀ l, (∀ ch ∈ l, ch ∈ c.runes) →
    (decrFromRight c l = some none ↔ ∀ ch ∈ l, ch = mn) := by
  intro l
  induction l with
  | nil =>
    intro _
    simp [decrFromRight]
  | cons r rest ih =>
    intro hmem
    have hrmem : r ∈ c.runes := hmem r (by simp)
    have hmem' : ∀ ch ∈ rest, ch ∈ c.runes := fun ch h => hmem ch (by simp [h])
    rw [decrFromRight]
    rcases hrest : decrFromRight c rest with _ | ⟨_ | newRest⟩
    · constructor
      · intro h; simp at h
      · intro h
        have : decrFromRight c rest = some none :=
          (ih hmem').mpr (fun ch hch => h ch (by simp [hch]))
        rw [hrest] at this
        simp at this
    · have hallrest : ∀ ch ∈ rest, ch = mn := (ih hmem').mp hrest
      rcases hwf.prev_cases hrmem with hpv | ⟨pv, hpv⟩
      · simp only [hpv]
        have hrmn : r = mn := (hwf.prev_none_iff hrmem hmn).mp hpv
        constructor
        · intro _ ch hch
          rcases List.mem_cons.mp hch with h | h
          · rw [h, hrmn]
          · exact hallrest ch h
        · intro _; trivial
      · simp only [hpv]
        obtain ⟨mx, hmx, -⟩ := hwf.maxChar
        simp only [hmx, fillRep_some]
        constructor
        · intro h; simp at h
        · intro h
          have hrmn : r = mn := h r (by simp)
          have : CSet.PrevOp c r = some none := (hwf.prev_none_iff hrmem hmn).mpr hrmn
          rw [hpv] at this
          simp at this
    · constructor
      · intro h; simp at h
      · intro h
        have : decrFromRight c rest = some none :=
          (ih hmem').mpr (fun ch hch => h ch (by simp [hch]))
        rw [hrest] at this
        simp at this

theorem decrFromRight_shape {c : CSet} (hwf : WF c) {mn mx : Nat}
    (hmn : CSet.MinOp c = some mn) (hmx : CSet.MaxOp c = some mx) :
    ∀ pfx r rest pv, (∀ ch ∈ rest, ch = mn) →
    CSet.PrevOp c r = some (some pv) →
    decrFromRight c (pfx ++ r :: rest) =
      some (some (pfx ++ pv :: List.replicate rest.length mx)) := by
  intro pfx
  induction pfx with
  | nil =>
    intro r rest pv hall hpv
    have hrestmem : ∀ ch ∈ rest, ch ∈ c.runes := by
      intro ch hch
      rw [hall ch hch]
      exact hwf.mn_mem hmn
    have hrest : decrFromRight c rest = some none :=
      (decrFromRight_none_iff hwf hmn rest hrestmem).mpr hall
    rw [List.nil_append, decrFromRight]
    simp [hrest, hpv, hmx, fillRep_some]
  | cons x pfx ih =>
    intro r rest pv hall hpv
    have := ih r rest pv hall hpv
    rw [List.cons_append, decrFromRight]
    simp [this]

theorem WF.next_isSome {c : CSet} (hwf : WF c) {r : Nat} (hr : r < 128) :
    (CSet.NextOp c r).isSome = true := by
  have hlen : r < c.tbl.length := by rw [hwf.2.1]; exact hr
  have htbl : c.tbl[r]? = some c.tbl[r] := List.getElem?_eq_getElem hlen
  have hbound : c.tbl[r] < c.runes.length := hwf.2.2.2.2.2.1 _ (List.getElem_mem hlen)
  simp only [CSet.NextOp, htbl]
  by_cases hlast : c.tbl[r] = c.runes.length - 1
  · rw [if_pos hlast]; rfl
  · rw [if_neg hlast]
    have : c.tbl[r] + 1 < c.runes.length := by omega
    rw [List.getElem?_eq_getElem this]
    rfl

theorem WF.prev_isSome {c : CSet} (hwf : WF c) {r : Nat} (hr : r < 128) :
    (CSet.PrevOp c r).isSome = true := by
  have hlen : r < c.tbl.length := by rw [hwf.2.1]; exact hr
  have htbl : c.tbl[r]? = some c.tbl[r] := List.getElem?_eq_getElem hlen
  have hbound : c.tbl[r] < c.runes.length := hwf.2.2.2.2.2.1 _ (List.getElem_mem hlen)
  simp only [CSet.PrevOp, htbl]
  by_cases hzero : c.tbl[r] = 0
  · rw [if_pos hzero]; rfl
  · rw [if_neg hzero]
    have : c.tbl[r] - 1 < c.runes.length := by omega
    rw [List.getElem?_eq_getElem this]
    rfl

theorem WF.mid_isSome {c : CSet} (hwf : WF c) {a b : Nat} (ha : a < 128) (hb : b < 128) :
    (CSet.MidOp c a b).isSome = true := by
  have hlena : a < c.tbl.length := by rw [hwf.2.1]; exact ha
  have hlenb : b < c.tbl.length := by rw [hwf.2.1]; exact hb
  have htbla : c.tbl[a]? = some c.tbl[a] := List.getElem?_eq_getElem hlena
  have htblb : c.tbl[b]? = some c.tbl[b] := List.getElem?_eq_getElem hlenb
  simp only [CSet.MidOp, htbla, htblb]
  have hlen : 0 < c.runes.length := List.length_pos.mpr hwf.1
  have hmod : ((c.tbl[a] + if c.tbl[b] < c.tbl[a] then c.tbl[b] + c.runes.length
      else c.tbl[b]) / 2) % c.runes.length < c.runes.length := Nat.mod_lt _ hlen
  rw [List.getElem?_eq_getElem hmod]
  rfl

theorem WF.ascii_runes {c : CSet} (hwf : WF c) {r : Nat} (hr : r ∈ c.runes) : r < 128 :=
  hwf.2.2.2.1 r hr

theorem incrFromRight_isSome {c : CSet} (hwf : WF c) :
    ∀ l, (∀ ch ∈ l, ch < 128) → (incrFromRight c l).isSome = true := by
  intro l
  induction l with
  | nil => intro _; rfl
  | cons r rest ih =>
    intro hmem
    have hr : r < 128 := hmem r (by simp)
    have hmem' : ∀ ch ∈ rest, ch < 128 := fun ch h => hmem ch (by simp [h])
    rw [incrFromRight]
    rcases hrest : incrFromRight c rest with _ | ⟨_ | newRest⟩
    · have := ih hmem'
      rw [hrest] at this
      simp at this
    · rcases hnx : CSet.NextOp c r with _ | ⟨_ | inc⟩
      · have := hwf.next_isSome hr
        rw [hnx] at this
        simp at this
      · simp [hnx]
      · have hlen : 0 < c.runes.length := List.length_pos.mpr hwf.1
        have hmn : CSet.MinOp c = some c.runes[0] :=
          List.getElem?_eq_getElem hlen
        simp [hnx, hmn, fillRep_some]
    · simp

theorem decrFromRight_isSome {c : CSet} (hwf : WF c) :
    ∀ l, (∀ ch ∈ l, ch < 128) → (decrFromRight c l).isSome = true := by
  intro l
  induction l with
  | nil => intro _; rfl
  | cons r rest ih =>
    intro hmem
    have hr : r < 128 := hmem r (by simp)
    have hmem' : ∀ ch ∈ rest, ch < 128 := fun ch h => hmem ch (by simp [h])
    rw [decrFromRight]
    rcases hrest : decrFromRight c rest with _ | ⟨_ | newRest⟩
    · have := ih hmem'
      rw [hrest] at this
      simp at this
    · rcases hpv : CSet.PrevOp c r with _ | ⟨_ | dec⟩
      · have := hwf.prev_isSome hr
        rw [hpv] at this
        simp at this
      · simp [hpv]
      · have hlen : 0 < c.runes.length := List.length_pos.mpr hwf.1
        have hmx : CSet.MaxOp c = some c.runes[c.runes.length - 1] :=
          List.getElem?_eq_getElem (by omega)
        simp [hpv, hmx, fillRep_some]
    · simp

theorem loopBetween_isSome {c : CSet} (hwf : WF c) (mid : Nat) :
    ∀ ps qs ppre npre, ps.length = qs.length →
    (∀ ch ∈ ps, ch < 128) → (∀ ch ∈ qs, ch < 128) →
    (loopBetween c mid ppre npre ps qs).isSome = true := by
  intro ps
  induction ps with
  | nil => intro qs ppre npre _ _ _; rw [loopBetween]; rfl
  | cons p ps' ih =>
    intro qs ppre npre hlen hpmem hqmem
    cases qs with
    | nil => simp at hlen
    | cons q qs' =>
      have hp : p < 128 := hpmem p (by simp)
      have hq : q < 128 := hqmem q (by simp)
      have hpmem' : ∀ ch ∈ ps', ch < 128 := fun ch h => hpmem ch (by simp [h])
      have hqmem' : ∀ ch ∈ qs', ch < 128 := fun ch h => hqmem ch (by simp [h])
      have hlen' : ps'.length = qs'.length := by simpa using hlen
      rw [loopBetween]
      by_cases hpq : p = q
      · rw [if_pos hpq]
        exact ih qs' _ _ hlen' hpmem' hqmem'
      · rw [if_neg hpq]
        rcases hmid : CSet.MidOp c p q with _ | m
        · have := hwf.mid_isSome hp hq
          rw [hmid] at this
          simp at this
        · simp only [hmid]
          by_cases h1 : p < m
          · rw [if_pos h1]
            simp [fillRep_some]
          · rw [if_neg h1]
            by_cases h2 : m < q ∧ runesGreaterThan npre ppre = true
            · rw [if_pos h2]
              simp [fillRep_some]
            · rw [if_neg h2]
              exact ih qs' _ _ hlen' hpmem' hqmem'

theorem between_isSome {c : CSet} (hwf : WF c) (init p n : List Nat)
    (hpmem : ∀ ch ∈ p, ch < 128) (hnmem : ∀ ch ∈ n, ch < 128) :
    (between c init p n).isSome = true := by
  have hlen : 0 < c.runes.length := List.length_pos.mpr hwf.1
  have hmn : CSet.MinOp c = some c.runes[0] := List.getElem?_eq_getElem hlen
  have hmnr : c.runes[0] ∈ c.runes := hwf.mn_mem hmn
  have hmn128 : c.runes[0] < 128 := hwf.ascii_runes hmnr
  rw [between]
  by_cases hpe : p = [] ∧ n = []
  · rw [if_pos hpe]; rfl
  · rw [if_neg hpe]
    by_cases hne : n = []
    · rw [if_pos hne]
      rcases hinc : incrFromRight c p with _ | ⟨_ | res⟩
      · have := incrFromRight_isSome hwf p hpmem
        rw [hinc] at this
        simp at this
      · rcases hnx : CSet.NextOp c c.runes[0] with _ | ⟨_ | ntm⟩
        · have := hwf.next_isSome hmn128
          rw [hnx] at this
          simp at this
        · simp [hmn, hnx]
        · simp [hmn, hnx]
      · simp
    · rw [if_neg hne]
      by_cases hpe' : p = []
      · rw [if_pos hpe']
        rcases hdec : decrFromRight c n with _ | ⟨_ | res⟩
        · have := decrFromRight_isSome hwf n hnmem
          rw [hdec] at this
          simp at this
        · simp
        · simp
      · rw [if_neg hpe']
        by_cases hord : goStringLt n p
        · rw [if_pos hord]; rfl
        · rw [if_neg hord]
          have hmx : CSet.MaxOp c = some c.runes[c.runes.length - 1] :=
            List.getElem?_eq_getElem (by omega)
          have hmxr : c.runes[c.runes.length - 1] ∈ c.runes := hwf.mx_mem hmx
          have hmx128 : c.runes[c.runes.length - 1] < 128 := hwf.ascii_runes hmxr
          rcases hmid : CSet.MidOp c c.runes[0] c.runes[c.runes.length - 1] with _ | mid
          · have := hwf.mid_isSome hmn128 hmx128
            rw [hmid] at this
            simp at this
          · rw [betweenBoth, padKeys_eq hmn]
            simp only [hmn, hmx, hmid]
            have hpadlen : (p ++ List.replicate (n.length - p.length) c.runes[0]).length
                = (n ++ List.replicate (p.length - n.length) c.runes[0]).length := by
              simp only [List.length_append, List.length_replicate]
              omega
            have hpmem' : ∀ ch ∈ p ++ List.replicate (n.length - p.length) c.runes[0],
                ch < 128 := by
              intro ch h
              rcases List.mem_append.mp h with h | h
              · exact hpmem ch h
              · rw [List.eq_of_mem_replicate h]; exact hmn128
            have hnmem' : ∀ ch ∈ n ++ List.replicate (p.length - n.length) c.runes[0],
                ch < 128 := by
              intro ch h
              rcases List.mem_append.mp h with h | h
              · exact hnmem ch h
              · rw [List.eq_of_mem_replicate h]; exact hmn128
            rcases hloop : loopBetween c mid [] []
                (p ++ List.replicate (n.length - p.length) c.runes[0])
                (n ++ List.replicate (p.length - n.length) c.runes[0]) with _ | ⟨_ | res⟩
            · have := loopBetween_isSome hwf mid _ _ [] [] hpadlen hpmem' hnmem'
              rw [hloop] at this
              simp at this
            · simp
            · simp

theorem WF.absent_as_rank0 {c : CSet} (hwf : WF c) {r mn : Nat} (hr : r < 128)
    (habs : r ∉ c.runes) (hmn : CSet.MinOp c = some mn) :
    CSet.NextOp c r = CSet.NextOp c mn ∧ CSet.PrevOp c r = CSet.PrevOp c mn ∧
    ∀ b, CSet.MidOp c r b = CSet.MidOp c mn b := by
  have htblr : c.tbl[r]? = some 0 := hwf.2.2.2.2.2.2 r hr habs
  have hmnmem : mn ∈ c.runes := hwf.mn_mem hmn
  obtain ⟨i, htblmn, hri⟩ := hwf.rank hmnmem
  have hmn' := hmn
  rw [CSet.MinOp] at hmn'
  have hi0 : i = 0 :=
    List.getElem?_inj (getElem?_some_lt hri) hwf.runes_nodup (by rw [hri, hmn'])
  subst hi0
  refine ⟨?_, ?_, ?_⟩
  · simp only [CSet.NextOp, htblr, htblmn]
  · simp only [CSet.PrevOp, htblr, htblmn]
  · intro b
    simp only [CSet.MidOp, htblr, htblmn]

theorem between_both_eq {c : CSet} {init p n : List Nat} (hp : p ≠ []) (hn : n ≠ [])
    (hord : goStringLt n p = false) :
    between c init p n = betweenBoth c p n := by
  rw [between, if_neg (by simp [hp]), if_neg hn, if_neg hp, if_neg (by simp [hord])]

theorem betweenBoth_growth {c : CSet} {p n pr nr : List Nat} {mn mx midc : Nat}
    (hmn : CSet.MinOp c = some mn) (hmx : CSet.MaxOp c = some mx)
    (hmid : CSet.MidOp c mn mx = some midc)
    (hpad : padKeys c p n = some (pr, nr))
    (hloop : loopBetween c midc [] [] pr nr = some none) :
    betweenBoth c p n = some (Except.ok (pr ++ [midc])) := by
  simp only [betweenBoth, hpad, hmn, hmx, hmid, hloop]

theorem betweenBoth_midsplit {c : CSet} {p n pr nr res : List Nat} {mn mx midc : Nat}
    (hmn : CSet.MinOp c = some mn) (hmx : CSet.MaxOp c = some mx)
    (hmid : CSet.MidOp c mn mx = some midc)
    (hpad : padKeys c p n = some (pr, nr))
    (hloop : loopBetween c midc [] [] pr nr = some (some res)) :
    betweenBoth c p n = some (Except.ok res) := by
  simp only [betweenBoth, hpad, hmn, hmx, hmid, hloop]

theorem loopBetween_common (c : CSet) (mid : Nat) :
    ∀ com ppre npre x y, loopBetween c mid ppre npre (com ++ x) (com ++ y) =
      loopBetween c mid (ppre ++ com) (npre ++ com) x y := by
  intro com
  induction com with
  | nil => intro ppre npre x y; simp
  | cons a com ih =>
    intro ppre npre x y
    rw [List.cons_append, List.cons_append, loopBetween, if_pos rfl, ih]
    simp [List.append_assoc]

theorem loopBetween_first_split {c : CSet} {mid m a b : Nat} {com u v : List Nat}
    (hab : a ≠ b) (hm : CSet.MidOp c a b = some m) (ham : a < m) :
    loopBetween c mid [] [] (com ++ a :: u) (com ++ b :: v) =
      some (some (com ++ m :: List.replicate u.length mid)) := by
  rw [loopBetween_common c mid com [] [] (a :: u) (b :: v)]
  simp only [List.nil_append]
  rw [loopBetween, if_neg hab]
  simp only [hm]
  rw [if_pos ham]
  simp [fillRep_some]

theorem between_before_error_iff {c : CSet} (hwf : WF c) {mn : Nat}
    (hmn : CSet.MinOp c = some mn) (init k : List Nat) (hk : k ≠ [])
    (hmem : ∀ ch ∈ k, ch ∈ c.runes) :
    between c init [] k = some (Except.error GenError.allMinBefore) ↔
      ∀ ch ∈ k, ch = mn := by
  rw [between, if_neg (by simp [hk]), if_neg hk, if_pos rfl]
  rcases hdec : decrFromRight c k with _ | ⟨_ | res⟩
  · constructor
    · intro h; simp at h
    · intro h
      have := (decrFromRight_none_iff hwf hmn k hmem).mpr h
      rw [hdec] at this
      simp at this
  · constructor
    · intro _
      exact (decrFromRight_none_iff hwf hmn k hmem).mp hdec
    · intro _; trivial
  · constructor
    · intro h; simp at h
    · intro h
      have := (decrFromRight_none_iff hwf hmn k hmem).mpr h
      rw [hdec] at this
      simp at this

theorem between_before_shape {c : CSet} (hwf : WF c) {mn mx : Nat}
    (hmn : CSet.MinOp c = some mn) (hmx : CSet.MaxOp c = some mx)
    (init : List Nat) {pfx rest : List Nat} {r pv : Nat}
    (hall : ∀ ch ∈ rest, ch = mn)
    (hpv : CSet.PrevOp c r = some (some pv)) :
    between c init [] (pfx ++ r :: rest) =
      some (Except.ok (pfx ++ pv :: List.replicate rest.length mx)) := by
  have hne : pfx ++ r :: rest ≠ [] := by simp
  rw [between, if_neg (by simp [hne]), if_neg hne, if_pos rfl,
    decrFromRight_shape hwf hmn hmx pfx r rest pv hall hpv]

theorem splitFirst_append {sep : Nat} :
    ∀ tag key : List Nat, sep ∉ tag →
    splitFirst sep (tag ++ sep :: key) = some (tag, key) := by
  intro tag
  induction tag with
  | nil =>
    intro key _
    simp [splitFirst]
  | cons c t ih =>
    intro key hsep
    have hc : c ≠ sep := by
      intro h
      exact hsep (by simp [h])
    have ht : sep ∉ t := fun h => hsep (by simp [h])
    rw [List.cons_append, splitFirst, if_neg hc, ih key ht]

set_option maxRecDepth 10000

/-- C1 counterexample: over the alphabet `"0123456789"` (initial key
`"555"`), `Between("1", "10")` succeeds with `"104"`, which is not
lexicographically smaller than the upper bound `"10"` even though
`"1" < "10"`.  The bounding invariant fails whenever the upper bound is the
lower bound extended by minimum characters. -/
theorem C1_counterexample :
    goStringLt [49] [49, 48] = true ∧
    between digitsCS [53, 53, 53] [49] [49, 48] = some (Except.ok [49, 48, 52]) ∧
    goStringLt [49, 48, 52] [49, 48] = false := by
  decide

/-- C1 (amended): for a well-formed alphabet and keys over it, whenever
`Between(prev, next)` succeeds, the result is strictly greater than `prev`
(when present) and strictly less than `next` (when present), provided that
when both bounds are present `prev < next` and `next` is not `prev`
right-extended by minimum characters (the case refuted by the
counterexample). -/
theorem C1_bounding_amended (c : CSet) (mn : Nat) (init p n k : List Nat)
    (hwf : WF c) (hmn : CSet.MinOp c = some mn)
    (hpmem : ∀ ch ∈ p, ch ∈ c.runes) (hnmem : ∀ ch ∈ n, ch ∈ c.runes)
    (hboth : p ≠ [] → n ≠ [] → goStringLt p n = true ∧
      ¬(n.take p.length = p ∧ ∀ ch ∈ n.drop p.length, ch = mn))
    (hrun : between c init p n = some (Except.ok k)) :
    (p ≠ [] → goStringLt p k = true) ∧ (n ≠ [] → goStringLt k n = true) :=
  between_bounds hwf hmn hpmem hnmem hboth hrun

/-- C1 witness: the amended bounding theorem applied to
`Between("555", "557") = "556"` over `"0123456789"`. -/
theorem C1_bounding_amended_witness :
    goStringLt [53, 53, 53] [53, 53, 54] = true ∧
    goStringLt [53, 53, 54] [53, 53, 55] = true := by
  have h := C1_bounding_amended digitsCS 48 [53, 53, 53] [53, 53, 53] [53, 53, 55]
    [53, 53, 54] (by decide) (by decide) (by decide) (by decide) (by decide) (by decide)
  exact ⟨h.1 (by decide), h.2 (by decide)⟩

/-- C2 counterexample: over `"0123456789"`, `Between("7004", "7040")`
returns `"7024"`.  At the first differing position the midpoint of `'0'`
and `'4'` is `'2'` (strictly above `'0'`), but the remaining position is
filled with the alphabet midpoint `'4'`, not with `min() = '0'` as the
claim states: the result is not `"7020"`. -/
theorem C2_counterexample :
    between digitsCS [53, 53, 53] [55, 48, 48, 52] [55, 48, 52, 48] =
      some (Except.ok [55, 48, 50, 52]) ∧
    CSet.MidOp digitsCS 48 52 = some 50 ∧
    CSet.MinOp digitsCS = some 48 ∧
    [55, 48, 50, 52] ≠ [55, 48] ++ 50 :: List.replicate 1 48 := by
  decide

/-- C2 (amended): with both bounds present, at the first position where the
min-padded keys differ, if the circular midpoint `m` of the two characters
is strictly greater than `prev`'s character, the result is the common
prefix, then `m`, then the alphabet midpoint character `Mid(min, max)` (not
`min()`) at every remaining position. -/
theorem C2_first_split_amended (c : CSet) (init p n pr nr com u v : List Nat)
    (a b m mn mx midc : Nat)
    (hp : p ≠ []) (hn : n ≠ []) (hord : goStringLt n p = false)
    (hmn : CSet.MinOp c = some mn) (hmx : CSet.MaxOp c = some mx)
    (hmid : CSet.MidOp c mn mx = some midc)
    (hpad : padKeys c p n = some (pr, nr))
    (hpr : pr = com ++ a :: u) (hnr : nr = com ++ b :: v)
    (hab : a ≠ b) (hm : CSet.MidOp c a b = some m) (ham : a < m) :
    between c init p n = some (Except.ok (com ++ m :: List.replicate u.length midc)) := by
  subst hpr; subst hnr
  rw [between_both_eq hp hn hord]
  exact betweenBoth_midsplit hmn hmx hmid hpad (loopBetween_first_split hab hm ham)

/-- C2 witness: the amended first-split theorem applied to
`Between("10", "30") = "24"` over `"0123456789"` (midpoint `'2'`, tail
filled with the alphabet midpoint `'4'`). -/
theorem C2_first_split_amended_witness :
    between digitsCS [53, 53, 53] [49, 48] [51, 48] = some (Except.ok [50, 52]) := by
  have h := C2_first_split_amended digitsCS [53, 53, 53] [49, 48] [51, 48]
    [49, 48] [51, 48] [] [48] [48] 49 51 50 48 57 52
    (by decide) (by decide) (by decide) (by decide) (by decide) (by decide)
    (by decide) (by decide) (by decide) (by decide) (by decide) (by decide)
  simpa using h

/-- C3 counterexample: over `"0123456789"`, `Between("69", "7000")` has no
position admitting a strict split, and returns `"69004"` — the min-padded
`prev` (`"6900"`) with the midpoint `'4'` appended — not `prev` itself with
the midpoint appended (`"694"`). -/
theorem C3_counterexample :
    between digitsCS [53, 53, 53] [54, 57] [55, 48, 48, 48] =
      some (Except.ok [54, 57, 48, 48, 52]) ∧
    [54, 57, 48, 48, 52] ≠ [54, 57] ++ [52] := by
  decide

/-- C3 (amended): with both bounds present, when the scan over the padded
keys falls through without a strict split, the result is the min-padded
`prev` with the alphabet midpoint character appended (for
`len(prev) ≥ len(next)` this is `prev` itself with the midpoint appended,
as in `Between("700", "701") = "7004"`, proved in the witness). -/
theorem C3_growth_amended (c : CSet) (init p n pr nr : List Nat) (mn mx midc : Nat)
    (hp : p ≠ []) (hn : n ≠ []) (hord : goStringLt n p = false)
    (hmn : CSet.MinOp c = some mn) (hmx : CSet.MaxOp c = some mx)
    (hmid : CSet.MidOp c mn mx = some midc)
    (hpad : padKeys c p n = some (pr, nr))
    (hloop : loopBetween c midc [] [] pr nr = some none) :
    between c init p n = some (Except.ok (pr ++ [midc])) := by
  rw [between_both_eq hp hn hord]
  exact betweenBoth_growth hmn hmx hmid hpad hloop

/-- C3 witness: the amended growth theorem applied to
`Between("700", "701") = "7004"` over `"0123456789"` — the claim's own
concrete example. -/
theorem C3_growth_amended_witness :
    between digitsCS [53, 53, 53] [55, 48, 48] [55, 48, 49] =
      some (Except.ok [55, 48, 48, 52]) := by
  have h := C3_growth_amended digitsCS [53, 53, 53] [55, 48, 48] [55, 48, 49]
    [55, 48, 48] [55, 48, 49] 48 57 52
    (by decide) (by decide) (by decide) (by decide) (by decide) (by decide)
    (by decide) (by decide)
  simpa using h

/-- C4 counterexample: over `"0123456789"`, `Between("5", "5")` with equal
non-empty bounds does not fail: it returns `"54"`.  The code only rejects
`prev > next`, not `prev = next`. -/
theorem C4_counterexample :
    between digitsCS [53, 53, 53] [53] [53] = some (Except.ok [53, 52]) := by
  decide

/-- C4 (amended): with both bounds present, `Between` fails with the
ordering-violation error exactly when `prev > next` strictly; the case
`prev = next` is not rejected (see the counterexample). -/
theorem C4_order_violation_amended {c : CSet} {init p n : List Nat}
    (hp : p ≠ []) (hn : n ≠ []) (hord : goStringLt n p = true) :
    between c init p n = some (Except.error GenError.orderViolation) := by
  rw [between, if_neg (by simp [hp]), if_neg hn, if_neg hp, if_pos (by simp [hord])]

/-- C4 witness: the amended ordering theorem applied to `Between("5", "4")`
over `"0123456789"`. -/
theorem C4_order_violation_amended_witness :
    between digitsCS [53, 53, 53] [53] [52] =
      some (Except.error GenError.orderViolation) :=
  C4_order_violation_amended (by decide) (by decide) (by decide)

/-- C5 (code bug): `NewASCIICharacterSet` accepts the input `"00"` — a
duplicate of the smallest character — because the zero-initialised
`runeToIndex` array cannot distinguish "maps to index 0" from "absent";
a duplicate of a non-smallest character (`"011"`) is rejected as intended. -/
theorem C5_duplicate_min_accepted :
    exceptIsOk (NewASCIICharacterSet [48, 48]) = true ∧
    exceptIsOk (NewASCIICharacterSet [48, 49, 49]) = false := by
  decide

/-- C6 counterexample: over `"0123456789"`, the character `'a'` (97) is not
in the alphabet, yet `Next('a')` returns `('1', true)` — exactly the
behaviour of `Next('0')`, the character at rank 0: the zero-initialised
lookup array conflates absent characters with rank 0. -/
theorem C6_counterexample :
    digitsCS.runes.contains 97 = false ∧
    CSet.NextOp digitsCS 97 = some (some 49) ∧
    CSet.NextOp digitsCS 48 = some (some 49) := by
  decide

/-- C6 (amended): for every well-formed alphabet, an ASCII character
outside the alphabet is mapped to table entry 0, so `Next`, `Prev` and
`Mid` applied to it behave exactly as if it were the rank-0 (minimum)
character — the opposite of the claimed present/absent distinction. -/
theorem C6_rank0_conflation_amended (c : CSet) (r mn : Nat)
    (hwf : WF c) (hr : r < 128) (habs : r ∉ c.runes)
    (hmn : CSet.MinOp c = some mn) :
    CSet.NextOp c r = CSet.NextOp c mn ∧ CSet.PrevOp c r = CSet.PrevOp c mn ∧
    ∀ b, CSet.MidOp c r b = CSet.MidOp c mn b :=
  hwf.absent_as_rank0 hr habs hmn

/-- C6 witness: the amended conflation theorem applied to `'a'` over
`"0123456789"`. -/
theorem C6_rank0_conflation_amended_witness :
    CSet.NextOp digitsCS 97 = CSet.NextOp digitsCS 48 :=
  (C6_rank0_conflation_amended digitsCS 97 48
    (by decide) (by decide) (by decide) (by decide)).1

/-- C7 counterexample: `Between("€", "")` over `"0123456789"` panics (the
model value `none` is the out-of-range access `runeToIndex[0x20AC]` on the
128-entry array), so a key containing a non-ASCII rune crashes the process
instead of returning an error. -/
theorem C7_counterexample :
    between digitsCS [53, 53, 53] [8364] [] = none := by
  decide

/-- C7 (amended): for a well-formed alphabet, `Between` applied to keys
whose runes are all ASCII (codepoint < 128) never panics — every outcome is
a returned value (`isSome`), a key or an error; runes outside the ASCII
range are excluded (see the counterexample). -/
theorem C7_no_panic_ascii_amended {c : CSet} (hwf : WF c) (init p n : List Nat)
    (hpmem : ∀ ch ∈ p, ch < 128) (hnmem : ∀ ch ∈ n, ch < 128) :
    (between c init p n).isSome = true :=
  between_isSome hwf init p n hpmem hnmem

/-- C7 witness: the amended no-panic theorem applied to `Between("a", "")`
over `"0123456789"` — `'a'` is ASCII but outside the alphabet, and the call
still returns (no panic). -/
theorem C7_no_panic_ascii_amended_witness :
    (between digitsCS [53, 53, 53] [97] []).isSome = true :=
  C7_no_panic_ascii_amended (by decide) [53, 53, 53] [97] [] (by decide) (by decide)

/-- C8: for a well-formed alphabet and a non-empty key `k` over it,
`Between("", k)` fails with the exhaustion error if and only if every
character of `k` is the alphabet minimum; otherwise, writing
`k = pfx ++ r :: rest` with `rest` all-minimum and `r` having a
predecessor (the last position with a predecessor), the result replaces
`r` by its predecessor and sets every later position to `max()`. -/
theorem C8_before_exhaustion (c : CSet) (mn mx : Nat) (init k : List Nat)
    (hwf : WF c) (hmn : CSet.MinOp c = some mn) (hmx : CSet.MaxOp c = some mx)
    (hk : k ≠ []) (hmem : ∀ ch ∈ k, ch ∈ c.runes) :
    (between c init [] k = some (Except.error GenError.allMinBefore) ↔
      ∀ ch ∈ k, ch = mn) ∧
    (∀ pfx rest : List Nat, ∀ r pv : Nat, k = pfx ++ r :: rest →
      (∀ ch ∈ rest, ch = mn) → CSet.PrevOp c r = some (some pv) →
      between c init [] k =
        some (Except.ok (pfx ++ pv :: List.replicate rest.length mx))) := by
  constructor
  · exact between_before_error_iff hwf hmn init k hk hmem
  · intro pfx rest r pv hdecomp hall hpv
    rw [hdecomp]
    exact between_before_shape hwf hmn hmx init hall hpv

/-- C8 witness: the theorem applied to the claim's concrete examples over
`"0123456789"`: `Between("", "001") = "000"` and `Between("", "000")` is
the exhaustion error. -/
theorem C8_before_exhaustion_witness :
    between digitsCS [53, 53, 53] [] [48, 48, 49] = some (Except.ok [48, 48, 48]) ∧
    between digitsCS [53, 53, 53] [] [48, 48, 48] =
      some (Except.error GenError.allMinBefore) := by
  constructor
  · have h := (C8_before_exhaustion digitsCS 48 57 [53, 53, 53] [48, 48, 49]
      (by decide) (by decide) (by decide)
      (by decide) (by decide)).2 [48, 48] [] 49 48 (by decide) (by decide) (by decide)
    simpa using h
  · exact (C8_before_exhaustion digitsCS 48 57 [53, 53, 53] [48, 48, 48]
      (by decide) (by decide) (by decide)
      (by decide) (by decide)).1.mpr (by decide)

/-- C9: tag resolution of `Bucket.Between`.  With both bounds present and
well-formed, differing tags fail with the distinguished bucket-mismatch
error; identical tags succeed with that tag; with exactly one bound present
the result carries that bound's tag; with both absent it carries the
bucket's configured default tag; and in every success case the result is
the resolved tag, the separator, then the key produced by the generator's
`Between` on the bare keys. -/
theorem C9_bucket_between (b : Bucket) :
    (∀ prev next pt pk nt nk, prev ≠ [] → next ≠ [] →
      b.SplitBucketKey prev = (pt, pk) → pt ≠ [] →
      b.SplitBucketKey next = (nt, nk) → nt ≠ [] → pt ≠ nt →
      Bucket.Between b prev next = some (Except.error BucketError.mismatch)) ∧
    (∀ prev next pt pk nk k, prev ≠ [] → next ≠ [] →
      b.SplitBucketKey prev = (pt, pk) → pt ≠ [] →
      b.SplitBucketKey next = (pt, nk) →
      Generator.Between b.generator pk nk = some (Except.ok k) →
      Bucket.Between b prev next = some (Except.ok (pt ++ b.separator :: k))) ∧
    (∀ prev pt pk k, prev ≠ [] →
      b.SplitBucketKey prev = (pt, pk) → pt ≠ [] →
      Generator.Between b.generator pk [] = some (Except.ok k) →
      Bucket.Between b prev [] = some (Except.ok (pt ++ b.separator :: k))) ∧
    (∀ next nt nk k, next ≠ [] →
      b.SplitBucketKey next = (nt, nk) → nt ≠ [] →
      Generator.Between b.generator [] nk = some (Except.ok k) →
      Bucket.Between b [] next = some (Except.ok (nt ++ b.separator :: k))) ∧
    (∀ k, Generator.Between b.generator [] [] = some (Except.ok k) →
      Bucket.Between b [] [] = some (Except.ok (b.defaultTag ++ b.separator :: k))) := by
  refine ⟨?_, ?_, ?_, ?_, ?_⟩
  · intro prev next pt pk nt nk hprev hnext hsp hpt hsn hnt hne
    rw [Bucket.Between]
    simp only [if_neg hprev, hsp, if_neg hpt]
    simp only [if_neg hnext, hsn, if_neg hnt]
    rw [if_pos ⟨hpt, hne⟩]
  · intro prev next pt pk nk k hprev hnext hsp hpt hsn hgen
    rw [Bucket.Between]
    simp only [if_neg hprev, hsp, if_neg hpt]
    simp only [if_neg hnext, hsn, if_neg hpt]
    rw [if_neg (by intro h; exact h.2 rfl)]
    simp only [hgen, Bucket.createBucketKey, if_neg hpt]
  · intro prev pt pk k hprev hsp hpt hgen
    rw [Bucket.Between]
    simp only [if_neg hprev, hsp, if_neg hpt, if_true, hgen, Bucket.createBucketKey]
  · intro next nt nk k hnext hsn hnt hgen
    rw [Bucket.Between]
    simp only [if_neg hnext, hsn, if_neg hnt, if_true, hgen, Bucket.createBucketKey,
      ne_eq, not_true_eq_false, false_and, if_false]
  · intro k hgen
    rw [Bucket.Between]
    simp only [if_true, hgen, Bucket.createBucketKey]

/-- C9 witness: the tag-resolution theorem applied over `"0123456789"` with
default tag `"0"` and separator `'|'`: `Between("0|555", "1|555")` is the
bucket-mismatch error, and `Between("", "")` is `"0|555"`. -/
theorem C9_bucket_between_witness :
    Bucket.Between digitsBucket [48, 124, 53, 53, 53] [49, 124, 53, 53, 53] =
      some (Except.error BucketError.mismatch) ∧
    Bucket.Between digitsBucket [] [] = some (Except.ok [48, 124, 53, 53, 53]) := by
  constructor
  · exact (C9_bucket_between digitsBucket).1 [48, 124, 53, 53, 53]
      [49, 124, 53, 53, 53] [48] [53, 53, 53] [49] [53, 53, 53]
      (by decide) (by decide) (by decide) (by decide) (by decide) (by decide)
      (by decide)
  · have h := (C9_bucket_between digitsBucket).2.2.2.2 [53, 53, 53] (by decide)
    simpa using h

/-- C10 counterexample: building a namespaced key from the empty tag (which
contains no separator) substitutes the bucket's default tag `"0"`, so the
round-trip yields `("0", "a")`, not the original `("", "a")`. -/
theorem C10_counterexample :
    Bucket.createBucketKey digitsBucket [] [97] = [48, 124, 97] ∧
    Bucket.SplitBucketKey digitsBucket [48, 124, 97] = ([48], [97]) := by
  decide

/-- C10 (amended): for every non-empty tag and every key such that the
separator occurs in neither, splitting the namespaced key built from
`(tag, key)` yields back exactly `(tag, key)`; the empty tag is excluded
because `createBucketKey` substitutes the default tag for it (see the
counterexample). -/
theorem C10_split_roundtrip_amended (b : Bucket) (tag key : List Nat)
    (htag : tag ≠ []) (hsep1 : b.separator ∉ tag) (hsep2 : b.separator ∉ key) :
    b.SplitBucketKey (b.createBucketKey tag key) = (tag, key) := by
  rw [Bucket.createBucketKey, if_neg htag, Bucket.SplitBucketKey,
    splitFirst_append tag key hsep1]

/-- C10 witness: the amended round-trip theorem applied to the tag `"1"`
and key `"a"` with separator `'|'`. -/
theorem C10_split_roundtrip_amended_witness :
    Bucket.SplitBucketKey digitsBucket (Bucket.createBucketKey digitsBucket [49] [97]) =
      ([49], [97]) :=
  C10_split_roundtrip_amended digitsBucket [49] [97] (by decide) (by decide) (by decide)
